import Mathlib

/-!
Shallow embedding of the rebalancing core of the periodic index-fund
investment system (`code.py`): the portfolio state (`IndexPortfolio`),
the order-generation pass (`generate_orders`) and the execution loop with
optimistic settlement (`IndexInvestor.rebalance`).

Python dictionaries are modelled as association lists (`List (String × _)`)
that keep insertion order: lookup returns the first binding, an update
replaces the binding in place, and a fresh key is appended at the end.
Decimal amounts are modelled as rationals, share quantities as integers,
and Python's `int()` conversion as truncation toward zero.  External
collaborators are parameters: the price feed is a function
`String → Option ℚ` (with `none` for a per-symbol failure) and the broker
is a function `ℕ → Bool` giving the reported outcome of each successive
submission.
-/

namespace IdxFund

/-- Order side, from the `"BUY"` / `"SELL"` action strings of `generate_orders`. -/
inductive Side where
  | BUY : Side
  | SELL : Side
deriving DecidableEq, Repr

/-- An order tuple `(symbol, quantity, action)` as appended by `generate_orders`. -/
structure Order where
  symbol : String
  quantity : ℤ
  side : Side
deriving DecidableEq, Repr

/-- Python's `int()` applied to a rational: truncation toward zero. -/
def truncQ (q : ℚ) : ℤ := if 0 ≤ q then ⌊q⌋ else ⌈q⌉

/-- `d.get(k, v0)` on an association list standing for a Python dict. -/
def getD {α : Type} (d : List (String × α)) (k : String) (v0 : α) : α :=
  (List.lookup k d).getD v0

/-- `d[k] = v` on an association list standing for a Python dict: replace the
binding in place when the key is present, append it otherwise. -/
def setD {α : Type} (d : List (String × α)) (k : String) (v : α) : List (String × α) :=
  match d with
  | [] => [(k, v)]
  | (a, b) :: t => if a = k then (k, v) :: t else (a, b) :: setD t k v

/-- The state of an `IndexPortfolio`: `cash`, `holdings` and `prices`. -/
structure Portfolio where
  cash : ℚ
  holdings : List (String × ℤ)
  prices : List (String × ℚ)
deriving DecidableEq, Repr

/-- `IndexPortfolio.update_prices`: refresh the stored price of each listed
symbol from the feed; a per-symbol feed failure leaves the stored price
untouched and the loop continues with the next symbol. -/
def update_prices (prices : List (String × ℚ)) (feed : String → Option ℚ) :
    List String → List (String × ℚ)
  | [] => prices
  | s :: rest =>
    match feed s with
    | some v => update_prices (setD prices s v) feed rest
    | none => update_prices prices feed rest

/-- The holdings part of `IndexPortfolio.get_total_value`: each held symbol
contributes `holdings[s] * prices.get(s, 0)`. -/
def holdings_value (h : List (String × ℤ)) (pr : List (String × ℚ)) : ℚ :=
  (h.map (fun e => (e.2 : ℚ) * getD pr e.1 0)).sum

/-- `IndexPortfolio.get_total_value`: value of the holdings plus cash, a symbol
with no known price contributing 0. -/
def get_total_value (p : Portfolio) : ℚ :=
  holdings_value p.holdings p.prices + p.cash

/-- `IndexPortfolio.get_current_weights`: the weight of each priced holding
plus a synthetic `"CASH"` entry; empty when the total value is 0.  The call
inside `generate_orders` computes this and never uses the result. -/
def get_current_weights (p : Portfolio) : List (String × ℚ) :=
  if get_total_value p = 0 then []
  else
    (p.holdings.filterMap (fun e =>
      match List.lookup e.1 p.prices with
      | some pr => some (e.1, (e.2 : ℚ) * pr / get_total_value p)
      | none => none)) ++ [("CASH", p.cash / get_total_value p)]

/-- The `current_value` of a symbol inside the `generate_orders` loop:
`holdings[symbol] * prices[symbol]` when the symbol is in both dicts, else 0. -/
def currentValue (h : List (String × ℤ)) (pr : List (String × ℚ)) (s : String) : ℚ :=
  match List.lookup s h, List.lookup s pr with
  | some hq, some price => (hq : ℚ) * price
  | _, _ => 0

/-- The `value_difference = target_value - current_value` of one loop step of
`generate_orders`, with `target_value = total_value * target_weight`. -/
def vdOf (tv : ℚ) (h : List (String × ℤ)) (pr : List (String × ℚ)) (s : String) (w : ℚ) : ℚ :=
  tv * w - currentValue h pr s

/-- One iteration of the `generate_orders` loop at symbol `s` with target
weight `w` and running available cash `c`: returns the emitted order, if any,
together with the new available cash.  Mirrors the source exactly: the
dead-zone test first, then the price guard, then the whole-share quantity,
then the cash-guarded BUY or the unconditional SELL. -/
def genStep (tv : ℚ) (h : List (String × ℤ)) (pr : List (String × ℚ)) (mov : ℚ)
    (s : String) (w : ℚ) (c : ℚ) : Option Order × ℚ :=
  if |vdOf tv h pr s w| < mov then (none, c)
  else
    match List.lookup s pr with
    | none => (none, c)
    | some price =>
      if 0 < price then
        if 0 < truncQ (vdOf tv h pr s w / price) ∧ 0 < vdOf tv h pr s w then
          if (truncQ (vdOf tv h pr s w / price) : ℚ) * price ≤ c then
            (some ⟨s, truncQ (vdOf tv h pr s w / price), Side.BUY⟩,
              c - (truncQ (vdOf tv h pr s w / price) : ℚ) * price)
          else (none, c)
        else
          if truncQ (vdOf tv h pr s w / price) < 0 ∧ vdOf tv h pr s w < 0 then
            (some ⟨s, |truncQ (vdOf tv h pr s w / price)|, Side.SELL⟩, c)
          else (none, c)
      else (none, c)

/-- The order-accumulation loop of `generate_orders` over the target weights,
threading the running `available_cash`. -/
def genGo (tv : ℚ) (h : List (String × ℤ)) (pr : List (String × ℚ)) (mov : ℚ) :
    List (String × ℚ) → ℚ → List Order
  | [], _ => []
  | (s, w) :: rest, c =>
    match genStep tv h pr mov s w c with
    | (some o, c') => o :: genGo tv h pr mov rest c'
    | (none, c') => genGo tv h pr mov rest c'

/-- The `available_cash` value after running the `generate_orders` loop over a
list of target weights. -/
def availGo (tv : ℚ) (h : List (String × ℤ)) (pr : List (String × ℚ)) (mov : ℚ) :
    List (String × ℚ) → ℚ → ℚ
  | [], c => c
  | (s, w) :: rest, c => availGo tv h pr mov rest (genStep tv h pr mov s w c).2

/-- The price refresh at the top of `generate_orders`:
`portfolio.update_prices(list(target_weights.keys()))`. -/
def refresh_portfolio (p : Portfolio) (feed : String → Option ℚ)
    (target_weights : List (String × ℚ)) : Portfolio :=
  { p with prices := update_prices p.prices feed (target_weights.map Prod.fst) }

/-- `generate_orders`: refresh the prices of the target symbols, take the
total-value snapshot, and run the accumulation loop starting from the
portfolio's cash.  Returns the portfolio as left by the price refresh
together with the order list. -/
def generate_orders (p : Portfolio) (feed : String → Option ℚ)
    (target_weights : List (String × ℚ)) (min_order_value : ℚ) : Portfolio × List Order :=
  (refresh_portfolio p feed target_weights,
    genGo (get_total_value (refresh_portfolio p feed target_weights))
      (refresh_portfolio p feed target_weights).holdings
      (refresh_portfolio p feed target_weights).prices
      min_order_value target_weights (refresh_portfolio p feed target_weights).cash)

/-- Signed quantity of an order: the holdings of its symbol change by this
amount when the order settles (positive for BUY, negative for SELL). -/
def sgnQty (o : Order) : ℤ :=
  match o.side with
  | Side.BUY => o.quantity
  | Side.SELL => -o.quantity

/-- The optimistic settlement inside `IndexInvestor.rebalance`: on a reported
success, BUY adds the quantity to `holdings[symbol]` and pays
`quantity * prices[symbol]` out of cash; SELL is the mirror.  `none` models the
`KeyError` raised when the symbol has no stored price. -/
def apply_settlement (p : Portfolio) (o : Order) : Option Portfolio :=
  match List.lookup o.symbol p.prices with
  | none => none
  | some pr =>
    match o.side with
    | Side.BUY => some { p with
        holdings := setD p.holdings o.symbol (getD p.holdings o.symbol 0 + o.quantity),
        cash := p.cash - (o.quantity : ℚ) * pr }
    | Side.SELL => some { p with
        holdings := setD p.holdings o.symbol (getD p.holdings o.symbol 0 - o.quantity),
        cash := p.cash + (o.quantity : ℚ) * pr }

/-- The execution loop of `IndexInvestor.rebalance`: submit each
positive-quantity order to the broker (indexed by the running count of
submissions), settle optimistically on reported success, skip on failure,
and collect the successfully executed orders in order. -/
def exec_orders (p : Portfolio) : List Order → (ℕ → Bool) → ℕ → Option (Portfolio × List Order)
  | [], _, _ => some (p, [])
  | o :: rest, broker, k =>
    if 0 < o.quantity then
      if broker k then
        match apply_settlement p o with
        | none => none
        | some p1 => (exec_orders p1 rest broker (k + 1)).map (fun r => (r.1, o :: r.2))
      else exec_orders p rest broker (k + 1)
    else exec_orders p rest broker k

/-- `IndexInvestor.rebalance`: with no composition available it logs and
returns `None`; otherwise it generates orders with the default
`min_order_value = 10`, executes them in sequence, and falls off the end of
the function.  The last component of the result models the Python return
value, which is always `None`; the outer `Option` models an uncaught
exception during settlement. -/
def rebalance (comp : Option (List (String × ℚ))) (p : Portfolio)
    (feed : String → Option ℚ) (broker : ℕ → Bool) :
    Option (Portfolio × List Order × Option ℕ) :=
  match comp with
  | none => some (p, [], none)
  | some tw =>
    (exec_orders (generate_orders p feed tw 10).1 (generate_orders p feed tw 10).2
        broker 0).map (fun r => (r.1, r.2, none))

/-- Value at the stored prices of one order when bought: `quantity * price`
for a BUY, 0 for a SELL. -/
def buyVal (pr : List (String × ℚ)) (o : Order) : ℚ :=
  match o.side with
  | Side.BUY => (o.quantity : ℚ) * getD pr o.symbol 0
  | Side.SELL => 0

/-- Total value at the stored prices of the BUY orders in a list. -/
def buySum (pr : List (String × ℚ)) (l : List Order) : ℚ :=
  (l.map (buyVal pr)).sum

/-- Net signed change of the holdings of symbol `s` if every order of the
list settles. -/
def netQty (l : List Order) (s : String) : ℤ :=
  (l.map (fun o => if o.symbol = s then sgnQty o else 0)).sum

/-- Whether one `generate_orders` step meets every condition for a BUY but
fails the available-cash test, so that the order is silently dropped. -/
def buyDropped (tv : ℚ) (h : List (String × ℤ)) (pr : List (String × ℚ)) (mov : ℚ)
    (s : String) (w : ℚ) (c : ℚ) : Bool :=
  if |vdOf tv h pr s w| < mov then false
  else
    match List.lookup s pr with
    | none => false
    | some price =>
      if 0 < price then
        if 0 < truncQ (vdOf tv h pr s w / price) ∧ 0 < vdOf tv h pr s w then
          if (truncQ (vdOf tv h pr s w / price) : ℚ) * price ≤ c then false else true
        else false
      else false

/-- Whether the whole `generate_orders` loop emits every BUY it warrants,
never dropping one for insufficient available cash. -/
def noDroppedBuys (tv : ℚ) (h : List (String × ℤ)) (pr : List (String × ℚ)) (mov : ℚ) :
    List (String × ℚ) → ℚ → Bool
  | [], _ => true
  | (s, w) :: rest, c =>
    !buyDropped tv h pr mov s w c &&
      noDroppedBuys tv h pr mov rest (genStep tv h pr mov s w c).2

/-- The number of reported broker successes over a list of submitted orders:
positive-quantity orders consume one broker outcome each, in order. -/
def successCount (broker : ℕ → Bool) : List Order → ℕ → ℕ
  | [], _ => 0
  | o :: rest, k =>
    if 0 < o.quantity then
      if broker k then successCount broker rest (k + 1) + 1
      else successCount broker rest (k + 1)
    else successCount broker rest k

/-! ### Association-list lemmas -/

theorem lookup_setD_self {α : Type} (d : List (String × α)) (k : String) (v : α) :
    List.lookup k (setD d k v) = some v := by
  induction d with
  | nil => simp [setD]
  | cons e t ih =>
    obtain ⟨a, b⟩ := e
    by_cases h : a = k
    · simp [setD, h]
    · simpa [setD, h, List.lookup, beq_false_of_ne (Ne.symm h)] using ih

theorem lookup_setD_ne {α : Type} (d : List (String × α)) (k k' : String) (v : α)
    (h : k' ≠ k) : List.lookup k' (setD d k v) = List.lookup k' d := by
  induction d with
  | nil => simp [setD, List.lookup, beq_false_of_ne h]
  | cons e t ih =>
    obtain ⟨a, b⟩ := e
    by_cases ha : a = k
    · subst ha
      simp [setD, List.lookup, beq_false_of_ne h]
    · by_cases ha' : k' = a
      · simp [setD, ha, List.lookup, ha']
      · simpa [setD, ha, List.lookup, beq_false_of_ne ha'] using ih

theorem lookup_mem {α : Type} {d : List (String × α)} {k : String} {v : α}
    (h : List.lookup k d = some v) : (k, v) ∈ d := by
  induction d with
  | nil => simp at h
  | cons e t ih =>
    obtain ⟨a, b⟩ := e
    by_cases ha : k = a
    · subst ha
      simp [List.lookup] at h
      simp [h]
    · simp [List.lookup, beq_false_of_ne ha] at h
      exact List.mem_cons_of_mem _ (ih h)

theorem holdings_value_setD (h : List (String × ℤ)) (pr : List (String × ℚ))
    (k : String) (v : ℤ) :
    holdings_value (setD h k v) pr =
      holdings_value h pr + ((v - getD h k 0 : ℤ) : ℚ) * getD pr k 0 := by
  induction h with
  | nil => simp [setD, holdings_value, getD]
  | cons e t ih =>
    obtain ⟨a, b⟩ := e
    by_cases ha : a = k
    · subst ha
      simp [setD, holdings_value, getD]
      ring
    · simp only [setD, if_neg ha, holdings_value, List.map_cons, List.sum_cons] at *
      rw [ih]
      have : getD ((a, b) :: t) k 0 = getD t k 0 := by
        simp [getD, List.lookup, beq_false_of_ne (Ne.symm ha)]
      rw [this]
      ring

/-! ### Truncation lemmas -/

theorem truncQ_le_of_le {x : ℚ} {z : ℤ} (h : (z : ℚ) ≤ x) : z ≤ truncQ x := by
  unfold truncQ
  split_ifs with h0
  · exact Int.le_floor.2 h
  · calc z ≤ ⌊x⌋ := Int.le_floor.2 h
      _ ≤ ⌈x⌉ := Int.floor_le_ceil x

theorem truncQ_nonpos {x : ℚ} (h : x ≤ 0) : truncQ x ≤ 0 := by
  unfold truncQ
  split_ifs with h0
  · have : x = 0 := le_antisymm h h0
    simp [this]
  · exact Int.ceil_le.2 (by exact_mod_cast h)

theorem truncQ_le_of_le_neg {x : ℚ} {z : ℤ} (hx : x ≤ (z : ℚ)) :
    truncQ x ≤ z := by
  unfold truncQ
  split_ifs with h0
  · calc ⌊x⌋ ≤ ⌈x⌉ := Int.floor_le_ceil x
      _ ≤ z := Int.ceil_le.2 hx
  · exact Int.ceil_le.2 hx

theorem one_le_truncQ {x : ℚ} (h : (1 : ℚ) ≤ x) : 1 ≤ truncQ x :=
  truncQ_le_of_le (by exact_mod_cast h)

theorem truncQ_sub_self (x : ℚ) : truncQ (x - (truncQ x : ℚ)) = 0 := by
  unfold truncQ
  split_ifs with h0 h1 h1
  · rw [Int.floor_eq_zero_iff, Set.mem_Ico]
    exact ⟨h1, by linarith [Int.lt_floor_add_one x]⟩
  · exact absurd (sub_nonneg.2 (Int.floor_le x)) h1
  · have hx : x - (⌈x⌉ : ℚ) = 0 := le_antisymm (sub_nonpos.2 (Int.le_ceil x)) h1
    rw [hx]
    exact Int.floor_zero
  · rw [Int.ceil_eq_zero_iff, Set.mem_Ioc]
    push_neg at h1
    exact ⟨by linarith [Int.ceil_lt_add_one x], le_of_lt h1⟩

theorem truncQ_eq_zero {x : ℚ} (h : |x| < 1) : truncQ x = 0 := by
  rw [abs_lt] at h
  unfold truncQ
  split_ifs with h0
  · rw [Int.floor_eq_zero_iff]
    exact ⟨h0, h.2⟩
  · rw [Int.ceil_eq_zero_iff]
    push_neg at h0
    exact ⟨h.1, le_of_lt h0⟩

theorem truncQ_nonneg {x : ℚ} (h : 0 ≤ x) : 0 ≤ truncQ x := by
  unfold truncQ
  rw [if_pos h]
  exact Int.floor_nonneg.2 h

/-! ### One-step lemmas about the order-generation loop -/

theorem genStep_dz {tv : ℚ} {h : List (String × ℤ)} {pr : List (String × ℚ)} {mov : ℚ}
    {s : String} {w c : ℚ} (hdz : |vdOf tv h pr s w| < mov) :
    genStep tv h pr mov s w c = (none, c) := by
  unfold genStep
  rw [if_pos hdz]

theorem genStep_lookup_none {tv : ℚ} {h : List (String × ℤ)} {pr : List (String × ℚ)}
    {mov : ℚ} {s : String} {w c : ℚ} (hlook : List.lookup s pr = none) :
    genStep tv h pr mov s w c = (none, c) := by
  unfold genStep
  by_cases hdz : |vdOf tv h pr s w| < mov
  · rw [if_pos hdz]
  · rw [if_neg hdz]
    simp only [hlook]

theorem genStep_price_nonpos {tv : ℚ} {h : List (String × ℤ)} {pr : List (String × ℚ)}
    {mov : ℚ} {s : String} {w c price : ℚ} (hlook : List.lookup s pr = some price)
    (hp : ¬ 0 < price) : genStep tv h pr mov s w c = (none, c) := by
  unfold genStep
  by_cases hdz : |vdOf tv h pr s w| < mov
  · rw [if_pos hdz]
  · rw [if_neg hdz]
    simp only [hlook]
    rw [if_neg hp]

theorem genStep_zero {tv : ℚ} {h : List (String × ℤ)} {pr : List (String × ℚ)}
    {mov : ℚ} {s : String} {w c price : ℚ} (hlook : List.lookup s pr = some price)
    (hq : truncQ (vdOf tv h pr s w / price) = 0) :
    genStep tv h pr mov s w c = (none, c) := by
  unfold genStep
  by_cases hdz : |vdOf tv h pr s w| < mov
  · rw [if_pos hdz]
  · rw [if_neg hdz]
    simp only [hlook]
    by_cases hp : 0 < price
    · rw [if_pos hp, if_neg (fun hb => absurd (hq ▸ hb.1) (lt_irrefl 0)),
        if_neg (fun hs => absurd (hq ▸ hs.1) (lt_irrefl 0))]
    · rw [if_neg hp]

theorem genStep_buy_emit {tv : ℚ} {h : List (String × ℤ)} {pr : List (String × ℚ)}
    {mov : ℚ} {s : String} {w c price : ℚ} (hdz : ¬ |vdOf tv h pr s w| < mov)
    (hlook : List.lookup s pr = some price) (hp : 0 < price)
    (hq : 0 < truncQ (vdOf tv h pr s w / price)) (hvd : 0 < vdOf tv h pr s w)
    (hfit : (truncQ (vdOf tv h pr s w / price) : ℚ) * price ≤ c) :
    genStep tv h pr mov s w c =
      (some ⟨s, truncQ (vdOf tv h pr s w / price), Side.BUY⟩,
        c - (truncQ (vdOf tv h pr s w / price) : ℚ) * price) := by
  unfold genStep
  rw [if_neg hdz]
  simp only [hlook]
  rw [if_pos hp, if_pos ⟨hq, hvd⟩, if_pos hfit]

theorem genStep_buy_drop {tv : ℚ} {h : List (String × ℤ)} {pr : List (String × ℚ)}
    {mov : ℚ} {s : String} {w c price : ℚ} (hdz : ¬ |vdOf tv h pr s w| < mov)
    (hlook : List.lookup s pr = some price) (hp : 0 < price)
    (hq : 0 < truncQ (vdOf tv h pr s w / price)) (hvd : 0 < vdOf tv h pr s w)
    (hfit : ¬ (truncQ (vdOf tv h pr s w / price) : ℚ) * price ≤ c) :
    genStep tv h pr mov s w c = (none, c) := by
  unfold genStep
  rw [if_neg hdz]
  simp only [hlook]
  rw [if_pos hp, if_pos ⟨hq, hvd⟩, if_neg hfit]

theorem genStep_sell_emit {tv : ℚ} {h : List (String × ℤ)} {pr : List (String × ℚ)}
    {mov : ℚ} {s : String} {w c price : ℚ} (hdz : ¬ |vdOf tv h pr s w| < mov)
    (hlook : List.lookup s pr = some price) (hp : 0 < price)
    (hq : truncQ (vdOf tv h pr s w / price) < 0) (hvd : vdOf tv h pr s w < 0) :
    genStep tv h pr mov s w c =
      (some ⟨s, |truncQ (vdOf tv h pr s w / price)|, Side.SELL⟩, c) := by
  unfold genStep
  rw [if_neg hdz]
  simp only [hlook]
  rw [if_pos hp, if_neg (by
      rintro ⟨hq', -⟩
      exact absurd hq (not_lt.2 (le_of_lt hq'))), if_pos ⟨hq, hvd⟩]

theorem genStep_some {tv : ℚ} {h : List (String × ℤ)} {pr : List (String × ℚ)}
    {mov : ℚ} {s : String} {w c c' : ℚ} {o : Order}
    (hstep : genStep tv h pr mov s w c = (some o, c')) :
    o.symbol = s ∧ 0 < o.quantity ∧ c' = c - buyVal pr o ∧
      (∃ price, List.lookup s pr = some price ∧ 0 < price ∧
        sgnQty o = truncQ (vdOf tv h pr s w / price)) ∧
      (o.side = Side.BUY → buyVal pr o ≤ c) ∧
      (o.side = Side.SELL → c' = c) := by
  unfold genStep at hstep
  by_cases hdz : |vdOf tv h pr s w| < mov
  · rw [if_pos hdz] at hstep
    exact absurd hstep (by simp)
  · rw [if_neg hdz] at hstep
    cases hlook : List.lookup s pr with
    | none =>
      simp only [hlook] at hstep
      exact absurd hstep (by simp)
    | some price =>
      simp only [hlook] at hstep
      by_cases hp : 0 < price
      · rw [if_pos hp] at hstep
        by_cases hbuy : 0 < truncQ (vdOf tv h pr s w / price) ∧ 0 < vdOf tv h pr s w
        · rw [if_pos hbuy] at hstep
          by_cases hfit : (truncQ (vdOf tv h pr s w / price) : ℚ) * price ≤ c
          · rw [if_pos hfit] at hstep
            injection hstep with ho hc
            injection ho with ho
            subst ho
            refine ⟨rfl, hbuy.1, ?_, ⟨price, rfl, hp, rfl⟩, ?_, ?_⟩
            · rw [← hc]
              simp [buyVal, getD, hlook]
            · intro _
              simpa [buyVal, getD, hlook] using hfit
            · intro hside
              exact absurd hside (by simp)
          · rw [if_neg hfit] at hstep
            exact absurd hstep (by simp)
        · rw [if_neg hbuy] at hstep
          by_cases hsell : truncQ (vdOf tv h pr s w / price) < 0 ∧ vdOf tv h pr s w < 0
          · rw [if_pos hsell] at hstep
            injection hstep with ho hc
            injection ho with ho
            subst ho
            refine ⟨rfl, abs_pos.2 (ne_of_lt hsell.1), ?_, ⟨price, rfl, hp, ?_⟩, ?_, ?_⟩
            · rw [← hc]
              simp [buyVal]
            · simp [sgnQty, abs_of_neg hsell.1]
            · intro hside
              exact absurd hside (by simp)
            · intro _
              exact hc.symm
          · rw [if_neg hsell] at hstep
            exact absurd hstep (by simp)
      · rw [if_neg hp] at hstep
        exact absurd hstep (by simp)

theorem genStep_none {tv : ℚ} {h : List (String × ℤ)} {pr : List (String × ℚ)}
    {mov : ℚ} {s : String} {w c c' : ℚ}
    (hstep : genStep tv h pr mov s w c = (none, c')) : c' = c := by
  unfold genStep at hstep
  by_cases hdz : |vdOf tv h pr s w| < mov
  · rw [if_pos hdz] at hstep
    injection hstep with _ hc
    exact hc.symm
  · rw [if_neg hdz] at hstep
    cases hlook : List.lookup s pr with
    | none =>
      simp only [hlook] at hstep
      injection hstep with _ hc
      exact hc.symm
    | some price =>
      simp only [hlook] at hstep
      by_cases hp : 0 < price
      · rw [if_pos hp] at hstep
        by_cases hbuy : 0 < truncQ (vdOf tv h pr s w / price) ∧ 0 < vdOf tv h pr s w
        · rw [if_pos hbuy] at hstep
          by_cases hfit : (truncQ (vdOf tv h pr s w / price) : ℚ) * price ≤ c
          · rw [if_pos hfit] at hstep
            exact absurd hstep (by simp)
          · rw [if_neg hfit] at hstep
            injection hstep with _ hc
            exact hc.symm
        · rw [if_neg hbuy] at hstep
          by_cases hsell : truncQ (vdOf tv h pr s w / price) < 0 ∧ vdOf tv h pr s w < 0
          · rw [if_pos hsell] at hstep
            exact absurd hstep (by simp)
          · rw [if_neg hsell] at hstep
            injection hstep with _ hc
            exact hc.symm
      · rw [if_neg hp] at hstep
        injection hstep with _ hc
        exact hc.symm

theorem genStep_none_inv {tv : ℚ} {h : List (String × ℤ)} {pr : List (String × ℚ)}
    {mov : ℚ} {s : String} {w c c' : ℚ}
    (hstep : genStep tv h pr mov s w c = (none, c'))
    (hnd : buyDropped tv h pr mov s w c = false) :
    (|vdOf tv h pr s w| < mov) ∨ List.lookup s pr = none ∨
      (∃ price, List.lookup s pr = some price ∧ ¬ 0 < price) ∨
      (∃ price, List.lookup s pr = some price ∧ 0 < price ∧
        truncQ (vdOf tv h pr s w / price) = 0) := by
  unfold genStep at hstep
  unfold buyDropped at hnd
  by_cases hdz : |vdOf tv h pr s w| < mov
  · exact Or.inl hdz
  · rw [if_neg hdz] at hstep hnd
    cases hlook : List.lookup s pr with
    | none => exact Or.inr (Or.inl rfl)
    | some price =>
      simp only [hlook] at hstep hnd
      by_cases hp : 0 < price
      · rw [if_pos hp] at hstep hnd
        by_cases hbuy : 0 < truncQ (vdOf tv h pr s w / price) ∧ 0 < vdOf tv h pr s w
        · rw [if_pos hbuy] at hstep hnd
          by_cases hfit : (truncQ (vdOf tv h pr s w / price) : ℚ) * price ≤ c
          · rw [if_pos hfit] at hstep
            exact absurd hstep (by simp)
          · rw [if_neg hfit] at hnd
            exact absurd hnd (by simp)
        · rw [if_neg hbuy] at hstep
          by_cases hsell : truncQ (vdOf tv h pr s w / price) < 0 ∧ vdOf tv h pr s w < 0
          · rw [if_pos hsell] at hstep
            exact absurd hstep (by simp)
          · refine Or.inr (Or.inr (Or.inr ⟨price, rfl, hp, ?_⟩))
            rcases lt_trichotomy (truncQ (vdOf tv h pr s w / price)) 0 with hlt | heq | hgt
            · exfalso
              apply hsell
              refine ⟨hlt, ?_⟩
              by_contra hge
              push_neg at hge
              have : 0 ≤ vdOf tv h pr s w / price := div_nonneg hge (le_of_lt hp)
              exact absurd (truncQ_nonneg this) (not_le.2 hlt)
            · exact heq
            · exfalso
              apply hbuy
              refine ⟨hgt, ?_⟩
              by_contra hle
              push_neg at hle
              have : vdOf tv h pr s w / price ≤ 0 :=
                div_nonpos_of_nonpos_of_nonneg hle (le_of_lt hp)
              exact absurd (truncQ_nonpos this) (not_le.2 hgt)
      · exact Or.inr (Or.inr (Or.inl ⟨price, rfl, hp⟩))

/-! ### Lemmas about the whole order-generation loop -/

theorem genGo_nil (tv : ℚ) (h : List (String × ℤ)) (pr : List (String × ℚ)) (mov : ℚ)
    (c : ℚ) : genGo tv h pr mov [] c = [] := rfl

theorem genGo_cons (tv : ℚ) (h : List (String × ℤ)) (pr : List (String × ℚ)) (mov : ℚ)
    (s : String) (w : ℚ) (rest : List (String × ℚ)) (c : ℚ) :
    genGo tv h pr mov ((s, w) :: rest) c =
      (match genStep tv h pr mov s w c with
        | (some o, c') => o :: genGo tv h pr mov rest c'
        | (none, c') => genGo tv h pr mov rest c') := rfl

theorem availGo_nil (tv : ℚ) (h : List (String × ℤ)) (pr : List (String × ℚ)) (mov : ℚ)
    (c : ℚ) : availGo tv h pr mov [] c = c := rfl

theorem availGo_cons (tv : ℚ) (h : List (String × ℤ)) (pr : List (String × ℚ)) (mov : ℚ)
    (s : String) (w : ℚ) (rest : List (String × ℚ)) (c : ℚ) :
    availGo tv h pr mov ((s, w) :: rest) c =
      availGo tv h pr mov rest (genStep tv h pr mov s w c).2 := rfl

theorem genGo_mem {tv : ℚ} {h : List (String × ℤ)} {pr : List (String × ℚ)} {mov : ℚ} :
    ∀ {l : List (String × ℚ)} {c : ℚ} {o : Order}, o ∈ genGo tv h pr mov l c →
      o.symbol ∈ l.map Prod.fst ∧ 0 < o.quantity ∧
        ∃ price, List.lookup o.symbol pr = some price ∧ 0 < price := by
  intro l
  induction l with
  | nil =>
    intro c o hmem
    rw [genGo_nil] at hmem
    exact absurd hmem (List.not_mem_nil o)
  | cons e rest ih =>
    obtain ⟨s, w⟩ := e
    intro c o hmem
    rw [genGo_cons] at hmem
    cases hstep : genStep tv h pr mov s w c with
    | mk oo c' =>
      cases oo with
      | none =>
        simp only [hstep] at hmem
        obtain ⟨hsym, hq, hpr⟩ := ih hmem
        exact ⟨List.mem_cons_of_mem _ hsym, hq, hpr⟩
      | some o' =>
        simp only [hstep] at hmem
        rcases List.mem_cons.1 hmem with rfl | hmem'
        · obtain ⟨hsym, hq, _, ⟨price, hlook, hp, _⟩, _, _⟩ := genStep_some hstep
          exact ⟨by simp [hsym], hq, price, hsym ▸ hlook, hp⟩
        · obtain ⟨hsym, hq, hpr⟩ := ih hmem'
          exact ⟨List.mem_cons_of_mem _ hsym, hq, hpr⟩

theorem genGo_append (tv : ℚ) (h : List (String × ℤ)) (pr : List (String × ℚ)) (mov : ℚ) :
    ∀ (l₁ l₂ : List (String × ℚ)) (c : ℚ),
      genGo tv h pr mov (l₁ ++ l₂) c =
        genGo tv h pr mov l₁ c ++ genGo tv h pr mov l₂ (availGo tv h pr mov l₁ c) := by
  intro l₁
  induction l₁ with
  | nil => intro l₂ c; rfl
  | cons e rest ih =>
    obtain ⟨s, w⟩ := e
    intro l₂ c
    rw [List.cons_append, genGo_cons, genGo_cons, availGo_cons]
    cases hstep : genStep tv h pr mov s w c with
    | mk oo c' =>
      cases oo with
      | none => simpa using ih l₂ c'
      | some o' => simpa using ih l₂ c'

theorem availGo_eq (tv : ℚ) (h : List (String × ℤ)) (pr : List (String × ℚ)) (mov : ℚ) :
    ∀ (l : List (String × ℚ)) (c : ℚ),
      availGo tv h pr mov l c = c - buySum pr (genGo tv h pr mov l c) := by
  intro l
  induction l with
  | nil => intro c; rw [availGo_nil, genGo_nil]; simp [buySum]
  | cons e rest ih =>
    obtain ⟨s, w⟩ := e
    intro c
    rw [availGo_cons, genGo_cons]
    cases hstep : genStep tv h pr mov s w c with
    | mk oo c' =>
      cases oo with
      | none =>
        have hc := genStep_none hstep
        subst hc
        exact ih _
      | some o' =>
        obtain ⟨_, _, hc', _, _, _⟩ := genStep_some hstep
        subst hc'
        rw [ih]
        simp only [buySum, List.map_cons, List.sum_cons]
        ring

theorem availGo_nonneg (tv : ℚ) (h : List (String × ℤ)) (pr : List (String × ℚ)) (mov : ℚ) :
    ∀ (l : List (String × ℚ)) (c : ℚ), 0 ≤ c → 0 ≤ availGo tv h pr mov l c := by
  intro l
  induction l with
  | nil => intro c hc; rw [availGo_nil]; exact hc
  | cons e rest ih =>
    obtain ⟨s, w⟩ := e
    intro c hc
    rw [availGo_cons]
    cases hstep : genStep tv h pr mov s w c with
    | mk oo c' =>
      dsimp only
      cases oo with
      | none =>
        have := genStep_none hstep
        subst this
        exact ih _ hc
      | some o' =>
        obtain ⟨_, _, hc', _, hbuy, hsell⟩ := genStep_some hstep
        subst hc'
        cases hside : o'.side with
        | BUY => exact ih _ (by linarith [hbuy hside])
        | SELL =>
          have h0 : buyVal pr o' = 0 := by simp [buyVal, hside]
          rw [h0]
          exact ih _ (by linarith)

/-! ### Settlement and execution-loop lemmas -/

theorem currentValue_eq {h : List (String × ℤ)} {pr : List (String × ℚ)} {s : String}
    {price : ℚ} (hlook : List.lookup s pr = some price) :
    currentValue h pr s = ((getD h s 0 : ℤ) : ℚ) * price := by
  unfold currentValue getD
  cases hl : List.lookup s h with
  | none => simp [hl, hlook]
  | some hq => simp [hl, hlook]

theorem apply_settlement_some {p p' : Portfolio} {o : Order}
    (hset : apply_settlement p o = some p') :
    p'.prices = p.prices ∧
      p'.cash = p.cash - (sgnQty o : ℚ) * getD p.prices o.symbol 0 ∧
      List.lookup o.symbol p'.holdings = some (getD p.holdings o.symbol 0 + sgnQty o) ∧
      (∀ s, s ≠ o.symbol → List.lookup s p'.holdings = List.lookup s p.holdings) ∧
      get_total_value p' = get_total_value p := by
  unfold apply_settlement at hset
  cases hlook : List.lookup o.symbol p.prices with
  | none =>
    simp only [hlook] at hset
    exact absurd hset (by simp)
  | some pr =>
    simp only [hlook] at hset
    cases hside : o.side with
    | BUY =>
      rw [hside] at hset
      injection hset with hset
      subst hset
      refine ⟨rfl, ?_, ?_, ?_, ?_⟩
      · simp [sgnQty, hside, getD, hlook]
      · rw [lookup_setD_self]
        simp [sgnQty, hside]
      · intro s hs
        exact lookup_setD_ne _ _ _ _ hs
      · simp only [get_total_value]
        rw [holdings_value_setD]
        have hpr : getD p.prices o.symbol 0 = pr := by simp [getD, hlook]
        rw [hpr]
        push_cast
        ring
    | SELL =>
      rw [hside] at hset
      injection hset with hset
      subst hset
      refine ⟨rfl, ?_, ?_, ?_, ?_⟩
      · simp [sgnQty, hside, getD, hlook]
      · rw [lookup_setD_self]
        simp [sgnQty, hside]
        ring
      · intro s hs
        exact lookup_setD_ne _ _ _ _ hs
      · simp only [get_total_value]
        rw [holdings_value_setD]
        have hpr : getD p.prices o.symbol 0 = pr := by simp [getD, hlook]
        rw [hpr]
        push_cast
        ring

theorem netQty_nil (s : String) : netQty [] s = 0 := rfl

theorem netQty_cons (o : Order) (l : List Order) (s : String) :
    netQty (o :: l) s = (if o.symbol = s then sgnQty o else 0) + netQty l s := by
  simp [netQty]

theorem netQty_eq_zero {l : List Order} {s : String} (h : ∀ o ∈ l, o.symbol ≠ s) :
    netQty l s = 0 := by
  induction l with
  | nil => rfl
  | cons o rest ih =>
    rw [netQty_cons, if_neg (h o (List.mem_cons_self o rest)),
      ih (fun o' ho' => h o' (List.mem_cons_of_mem o ho'))]
    ring

theorem exec_nil (p : Portfolio) (broker : ℕ → Bool) (k : ℕ) :
    exec_orders p [] broker k = some (p, []) := rfl

theorem exec_cons (p : Portfolio) (o : Order) (rest : List Order) (broker : ℕ → Bool)
    (k : ℕ) :
    exec_orders p (o :: rest) broker k =
      (if 0 < o.quantity then
        if broker k then
          match apply_settlement p o with
          | none => none
          | some p1 => (exec_orders p1 rest broker (k + 1)).map (fun r => (r.1, o :: r.2))
        else exec_orders p rest broker (k + 1)
      else exec_orders p rest broker k) := rfl

theorem exec_preserves {broker : ℕ → Bool} :
    ∀ {l : List Order} {p p2 : Portfolio} {succ : List Order} {k : ℕ},
      exec_orders p l broker k = some (p2, succ) →
      p2.prices = p.prices ∧ get_total_value p2 = get_total_value p ∧
        succ.length = successCount broker l k := by
  intro l
  induction l with
  | nil =>
    intro p p2 succ k hex
    rw [exec_nil] at hex
    injection hex with hex
    injection hex with h1 h2
    subst h1
    subst h2
    exact ⟨rfl, rfl, rfl⟩
  | cons o rest ih =>
    intro p p2 succ k hex
    rw [exec_cons] at hex
    by_cases hq : 0 < o.quantity
    · rw [if_pos hq] at hex
      cases hb : broker k with
      | false =>
        simp only [hb, Bool.false_eq_true, if_false] at hex
        obtain ⟨h1, h2, h3⟩ := ih hex
        refine ⟨h1, h2, ?_⟩
        simp [successCount, hq, hb, h3]
      | true =>
        simp only [hb, if_true] at hex
        cases hset : apply_settlement p o with
        | none =>
          simp only [hset] at hex
          exact absurd hex (by simp)
        | some p1 =>
          simp only [hset] at hex
          obtain ⟨r, hr, heq⟩ := Option.map_eq_some'.1 hex
          obtain ⟨hp2, hsucc⟩ := Prod.mk.injEq .. ▸ heq
          subst hp2
          subst hsucc
          obtain ⟨h1, h2, h3⟩ := ih hr
          obtain ⟨hpr, _, _, _, htot⟩ := apply_settlement_some hset
          refine ⟨h1.trans hpr, h2.trans htot, ?_⟩
          simp [successCount, hq, hb, h3]
    · rw [if_neg hq] at hex
      obtain ⟨h1, h2, h3⟩ := ih hex
      refine ⟨h1, h2, ?_⟩
      simp [successCount, hq, h3]

theorem exec_true_holdings :
    ∀ {l : List Order} {p p2 : Portfolio} {succ : List Order} {k : ℕ},
      exec_orders p l (fun _ => true) k = some (p2, succ) →
      (∀ o ∈ l, 0 < o.quantity) →
      ∀ s : String,
        ((∀ o ∈ l, o.symbol ≠ s) → List.lookup s p2.holdings = List.lookup s p.holdings) ∧
        ((∃ o ∈ l, o.symbol = s) →
          List.lookup s p2.holdings = some (getD p.holdings s 0 + netQty l s)) := by
  intro l
  induction l with
  | nil =>
    intro p p2 succ k hex hpos s
    rw [exec_nil] at hex
    injection hex with hex
    injection hex with h1 h2
    subst h1
    refine ⟨fun _ => rfl, fun hmem => ?_⟩
    simp at hmem
  | cons o rest ih =>
    intro p p2 succ k hex hpos s
    rw [exec_cons] at hex
    rw [if_pos (hpos o (List.mem_cons_self o rest)), if_pos rfl] at hex
    cases hset : apply_settlement p o with
    | none =>
      simp only [hset] at hex
      exact absurd hex (by simp)
    | some p1 =>
      simp only [hset] at hex
      obtain ⟨r, hr, heq⟩ := Option.map_eq_some'.1 hex
      obtain ⟨hp2, hsucc⟩ := Prod.mk.injEq .. ▸ heq
      subst hp2
      have hpos' : ∀ o' ∈ rest, 0 < o'.quantity :=
        fun o' ho' => hpos o' (List.mem_cons_of_mem o ho')
      obtain ⟨_, _, hself, hframe, _⟩ := apply_settlement_some hset
      constructor
      · intro hns
        have hos : o.symbol ≠ s := hns o (List.mem_cons_self o rest)
        have hns' : ∀ o' ∈ rest, o'.symbol ≠ s :=
          fun o' ho' => hns o' (List.mem_cons_of_mem o ho')
        rw [(ih hr hpos' s).1 hns']
        exact hframe s (Ne.symm hos)
      · intro hmem
        by_cases hos : o.symbol = s
        · subst hos
          rw [netQty_cons, if_pos rfl]
          by_cases hrest : ∃ o' ∈ rest, o'.symbol = o.symbol
          · rw [(ih hr hpos' o.symbol).2 hrest]
            have : getD p1.holdings o.symbol 0 = getD p.holdings o.symbol 0 + sgnQty o := by
              simp [getD, hself]
            rw [this]
            congr 1
            ring
          · push_neg at hrest
            rw [(ih hr hpos' o.symbol).1 hrest, hself, netQty_eq_zero hrest]
            congr 1
            ring
        · rcases hmem with ⟨o', ho', hsym⟩
          rcases List.mem_cons.1 ho' with rfl | ho'
          · exact absurd hsym hos
          · rw [netQty_cons, if_neg hos]
            have hg : getD p1.holdings s 0 = getD p.holdings s 0 := by
              simp [getD, hframe s (fun hss => hos hss.symm)]
            rw [(ih hr hpos' s).2 ⟨o', ho', hsym⟩, hg]
            congr 1
            ring

/-! ### Refresh-identity and positivity lemmas -/

theorem setD_lookup_eq {α : Type} {d : List (String × α)} {k : String} {v : α}
    (h : List.lookup k d = some v) : setD d k v = d := by
  induction d with
  | nil => simp at h
  | cons e t ih =>
    obtain ⟨a, b⟩ := e
    by_cases ha : a = k
    · subst ha
      simp [List.lookup] at h
      simp [setD, h]
    · simp [List.lookup, beq_false_of_ne (Ne.symm ha)] at h
      simp [setD, ha, ih h]

theorem update_prices_self (pr : List (String × ℚ)) :
    ∀ l : List String, update_prices pr (fun s => List.lookup s pr) l = pr := by
  intro l
  induction l with
  | nil => rfl
  | cons s rest ih =>
    unfold update_prices
    cases hl : List.lookup s pr with
    | none => exact ih
    | some v =>
      show update_prices (setD pr s v) (fun s => List.lookup s pr) rest = pr
      rw [setD_lookup_eq hl]
      exact ih

theorem refresh_portfolio_self (p : Portfolio) (tw : List (String × ℚ)) :
    refresh_portfolio p (fun s => List.lookup s p.prices) tw = p := by
  unfold refresh_portfolio
  rw [update_prices_self]

theorem total_value_nonneg {p : Portfolio} (hh : ∀ e ∈ p.holdings, 0 ≤ e.2)
    (hpr : ∀ e ∈ p.prices, 0 ≤ e.2) (hc : 0 ≤ p.cash) : 0 ≤ get_total_value p := by
  unfold get_total_value
  have hhv : 0 ≤ holdings_value p.holdings p.prices := by
    unfold holdings_value
    apply List.sum_nonneg
    intro x hx
    obtain ⟨e, he, rfl⟩ := List.mem_map.1 hx
    apply mul_nonneg
    · exact_mod_cast hh e he
    · unfold getD
      cases hl : List.lookup e.1 p.prices with
      | none => simp
      | some v => simpa using hpr (e.1, v) (lookup_mem hl)
  linarith

theorem getD_holdings_nonneg {h : List (String × ℤ)} (hh : ∀ e ∈ h, 0 ≤ e.2)
    (s : String) : 0 ≤ getD h s 0 := by
  unfold getD
  cases hl : List.lookup s h with
  | none => simp
  | some v => simpa using hh (s, v) (lookup_mem hl)

/-! ### The no-oversell bound on emitted SELL orders -/

theorem genGo_sell_le {tv : ℚ} {h : List (String × ℤ)} {pr : List (String × ℚ)} {mov : ℚ}
    (htv : 0 ≤ tv) (hh : ∀ e ∈ h, 0 ≤ e.2) :
    ∀ {l : List (String × ℚ)} {c : ℚ} {s : String} {q : ℤ},
      (∀ e ∈ l, 0 ≤ e.2) → (⟨s, q, Side.SELL⟩ : Order) ∈ genGo tv h pr mov l c →
      q ≤ getD h s 0 := by
  intro l
  induction l with
  | nil =>
    intro c s q _ hmem
    rw [genGo_nil] at hmem
    exact absurd hmem (List.not_mem_nil _)
  | cons e rest ih =>
    obtain ⟨s', w⟩ := e
    intro c s q hw hmem
    rw [genGo_cons] at hmem
    cases hstep : genStep tv h pr mov s' w c with
    | mk oo c' =>
      cases oo with
      | none =>
        simp only [hstep] at hmem
        exact ih (fun e he => hw e (List.mem_cons_of_mem _ he)) hmem
      | some o' =>
        simp only [hstep] at hmem
        rcases List.mem_cons.1 hmem with heq | hmem'
        · subst heq
          obtain ⟨hsym, hqpos, -, ⟨price, hlook, hp, hsgn⟩, -, -⟩ := genStep_some hstep
          dsimp only at hsym hlook hsgn
          subst hsym
          have hsgnq : truncQ (vdOf tv h pr s w / price) = -q := by
            rw [← hsgn]
            rfl
          have hgnn : (0 : ℤ) ≤ getD h s 0 := getD_holdings_nonneg hh s
          have hcv : currentValue h pr s = ((getD h s 0 : ℤ) : ℚ) * price :=
            currentValue_eq hlook
          have hwnn : 0 ≤ w := hw (s, w) (List.mem_cons_self _ _)
          have hvd_lb : -((getD h s 0 : ℤ) : ℚ) * price ≤ vdOf tv h pr s w := by
            rw [vdOf, hcv]
            have hz : (0 : ℚ) ≤ ((getD h s 0 : ℤ) : ℚ) := by exact_mod_cast hgnn
            nlinarith
          have hdiv : (((-getD h s 0 : ℤ) : ℚ)) ≤ vdOf tv h pr s w / price := by
            rw [le_div_iff₀ hp]
            push_cast
            linarith
          have hle := truncQ_le_of_le hdiv
          rw [hsgnq] at hle
          omega
        · exact ih (fun e he => hw e (List.mem_cons_of_mem _ he)) hmem'

/-! ### Decomposition of the target list at one index -/

theorem take_getD_drop {α : Type} (d : α) :
    ∀ (l : List α) (i : ℕ), i < l.length →
      l = l.take i ++ l.getD i d :: l.drop (i + 1) := by
  intro l
  induction l with
  | nil => intro i hi; simp at hi
  | cons x t ih =>
    intro i hi
    cases i with
    | zero => simp [List.getD]
    | succ n =>
      have hn : n < t.length := by simpa using hi
      calc x :: t = x :: (t.take n ++ t.getD n d :: t.drop (n + 1)) := by rw [← ih n hn]
        _ = (x :: t).take (n + 1) ++ (x :: t).getD (n + 1) d :: (x :: t).drop (n + 2) := by
            simp [List.getD]

theorem genGo_symbol_ne {tv : ℚ} {h : List (String × ℤ)} {pr : List (String × ℚ)}
    {mov : ℚ} {l : List (String × ℚ)} {c : ℚ} {s : String}
    (hs : s ∉ l.map Prod.fst) : ∀ o ∈ genGo tv h pr mov l c, o.symbol ≠ s :=
  fun o ho heq => hs (heq ▸ (genGo_mem ho).1)

/-! ### The second rebalance pass generates nothing -/

theorem noDroppedBuys_cons (tv : ℚ) (h : List (String × ℤ)) (pr : List (String × ℚ))
    (mov : ℚ) (s : String) (w : ℚ) (rest : List (String × ℚ)) (c : ℚ) :
    noDroppedBuys tv h pr mov ((s, w) :: rest) c =
      (!buyDropped tv h pr mov s w c &&
        noDroppedBuys tv h pr mov rest (genStep tv h pr mov s w c).2) := rfl

theorem currentValue_congr {h1 h2 : List (String × ℤ)} {pr : List (String × ℚ)}
    {s : String} (hl : List.lookup s h2 = List.lookup s h1) :
    currentValue h2 pr s = currentValue h1 pr s := by
  unfold currentValue
  rw [hl]

theorem genGo_skip_all {tv : ℚ} {h : List (String × ℤ)} {pr : List (String × ℚ)}
    {mov : ℚ} :
    ∀ {l : List (String × ℚ)},
      (∀ e ∈ l, ∀ c : ℚ, genStep tv h pr mov e.1 e.2 c = (none, c)) →
      ∀ c, genGo tv h pr mov l c = [] := by
  intro l
  induction l with
  | nil => intro _ c; rfl
  | cons e rest ih =>
    obtain ⟨s, w⟩ := e
    intro hskip c
    rw [genGo_cons]
    rw [hskip (s, w) (List.mem_cons_self _ _) c]
    exact ih (fun e he => hskip e (List.mem_cons_of_mem _ he)) c

theorem pass2_empty {tv : ℚ} {h1 h2 : List (String × ℤ)} {pr : List (String × ℚ)}
    {mov : ℚ} :
    ∀ {l : List (String × ℚ)} {c1 : ℚ},
      (l.map Prod.fst).Nodup →
      noDroppedBuys tv h1 pr mov l c1 = true →
      (∀ s w', (s, w') ∈ l →
        ((∀ o ∈ genGo tv h1 pr mov l c1, o.symbol ≠ s) →
            List.lookup s h2 = List.lookup s h1) ∧
        ((∃ o ∈ genGo tv h1 pr mov l c1, o.symbol = s) →
            List.lookup s h2 = some (getD h1 s 0 + netQty (genGo tv h1 pr mov l c1) s))) →
      ∀ c2, genGo tv h2 pr mov l c2 = [] := by
  intro l
  induction l with
  | nil => intro c1 _ _ _ c2; rfl
  | cons e rest ih =>
    obtain ⟨s, w⟩ := e
    intro c1 hnd hnodrop hchar c2
    rw [noDroppedBuys_cons, Bool.and_eq_true, Bool.not_eq_true'] at hnodrop
    obtain ⟨hdropF, hnodrop'⟩ := hnodrop
    have hndr : (rest.map Prod.fst).Nodup := (List.nodup_cons.1 (by simpa using hnd)).2
    have hsnot : s ∉ rest.map Prod.fst := (List.nodup_cons.1 (by simpa using hnd)).1
    cases hstep : genStep tv h1 pr mov s w c1 with
    | mk oo c1' =>
      rw [hstep] at hnodrop'
      dsimp only at hnodrop'
      cases oo with
      | none =>
        have hc1' : c1' = c1 := genStep_none hstep
        rw [hc1'] at hnodrop' hstep
        have horders : genGo tv h1 pr mov ((s, w) :: rest) c1 =
            genGo tv h1 pr mov rest c1 := by
          rw [genGo_cons]
          simp only [hstep]
        have hne : ∀ o ∈ genGo tv h1 pr mov rest c1, o.symbol ≠ s :=
          genGo_symbol_ne hsnot
        have hlk : List.lookup s h2 = List.lookup s h1 := by
          apply (hchar s w (List.mem_cons_self _ _)).1
          rw [horders]
          exact hne
        have hvd2 : vdOf tv h2 pr s w = vdOf tv h1 pr s w := by
          unfold vdOf
          rw [currentValue_congr hlk]
        have hstep2 : ∀ c : ℚ, genStep tv h2 pr mov s w c = (none, c) := by
          intro c
          rcases genStep_none_inv hstep hdropF with hdz | hln | ⟨price, hlp, hp⟩ |
            ⟨price, hlp, hp, hq0⟩
          · exact genStep_dz (by rw [hvd2]; exact hdz)
          · exact genStep_lookup_none hln
          · exact genStep_price_nonpos hlp hp
          · exact genStep_zero hlp (by rw [hvd2]; exact hq0)
        rw [genGo_cons, hstep2 c2]
        apply ih hndr hnodrop'
        · intro s' w' hm
          have hs' : s' ∈ rest.map Prod.fst := List.mem_map.2 ⟨(s', w'), hm, rfl⟩
          have := hchar s' w' (List.mem_cons_of_mem _ hm)
          rw [horders] at this
          exact this
      | some o' =>
        obtain ⟨hsym, hqpos, hc1', ⟨price, hlook, hp, hsgn⟩, _, _⟩ := genStep_some hstep
        have horders : genGo tv h1 pr mov ((s, w) :: rest) c1 =
            o' :: genGo tv h1 pr mov rest c1' := by
          rw [genGo_cons]
          simp only [hstep]
        have hne : ∀ o ∈ genGo tv h1 pr mov rest c1', o.symbol ≠ s :=
          genGo_symbol_ne hsnot
        have hlk : List.lookup s h2 =
            some (getD h1 s 0 + netQty (genGo tv h1 pr mov ((s, w) :: rest) c1) s) := by
          apply (hchar s w (List.mem_cons_self _ _)).2
          rw [horders]
          exact ⟨o', List.mem_cons_self _ _, hsym⟩
        have hnet : netQty (genGo tv h1 pr mov ((s, w) :: rest) c1) s = sgnQty o' := by
          rw [horders, netQty_cons, if_pos hsym, netQty_eq_zero hne]
          ring
        rw [hnet] at hlk
        have hg2 : getD h2 s 0 = getD h1 s 0 + sgnQty o' := by
          simp [getD, hlk]
        have hvd1 : vdOf tv h1 pr s w = tv * w - ((getD h1 s 0 : ℤ) : ℚ) * price := by
          rw [vdOf, currentValue_eq hlook]
        have hvd2 : vdOf tv h2 pr s w =
            vdOf tv h1 pr s w - ((sgnQty o' : ℤ) : ℚ) * price := by
          rw [vdOf, currentValue_eq hlook, hg2, hvd1]
          push_cast
          ring
        have hq2 : truncQ (vdOf tv h2 pr s w / price) = 0 := by
          have hdiv : vdOf tv h2 pr s w / price =
              vdOf tv h1 pr s w / price - ((sgnQty o' : ℤ) : ℚ) := by
            rw [hvd2, sub_div, mul_div_assoc, div_self (ne_of_gt hp), mul_one]
          rw [hdiv, hsgn]
          exact truncQ_sub_self _
        have hstep2 : genStep tv h2 pr mov s w c2 = (none, c2) := genStep_zero hlook hq2
        rw [genGo_cons, hstep2]
        apply ih hndr hnodrop'
        · intro s' w' hm
          have hs' : s' ∈ rest.map Prod.fst := List.mem_map.2 ⟨(s', w'), hm, rfl⟩
          have hss' : o'.symbol ≠ s' := by
            rw [hsym]
            intro hctr
            exact hsnot (hctr ▸ hs')
          constructor
          · intro hno
            apply (hchar s' w' (List.mem_cons_of_mem _ hm)).1
            rw [horders]
            intro o ho
            rcases List.mem_cons.1 ho with rfl | ho'
            · exact hss'
            · exact hno o ho'
          · intro hex
            have hchar2 := (hchar s' w' (List.mem_cons_of_mem _ hm)).2
            rw [horders] at hchar2
            rw [hchar2 ⟨hex.choose, List.mem_cons_of_mem _ hex.choose_spec.1,
              hex.choose_spec.2⟩]
            rw [netQty_cons, if_neg hss']
            congr 2
            ring

/-! ### Splitting the generation loop at one target index -/

theorem genGo_split {tv : ℚ} {h : List (String × ℤ)} {pr : List (String × ℚ)} {mov : ℚ}
    {tw : List (String × ℚ)} {i : ℕ} {s : String} {w : ℚ}
    (hnd : (tw.map Prod.fst).Nodup) (hi : i < tw.length)
    (hsw : tw.getD i ("", 0) = (s, w)) (c : ℚ) :
    genGo tv h pr mov tw c =
      genGo tv h pr mov (tw.take i) c ++
        genGo tv h pr mov ((s, w) :: tw.drop (i + 1))
          (availGo tv h pr mov (tw.take i) c) ∧
      s ∉ (tw.take i).map Prod.fst ∧ s ∉ (tw.drop (i + 1)).map Prod.fst := by
  have hdecomp := take_getD_drop ("", 0) tw i hi
  rw [hsw] at hdecomp
  constructor
  · conv_lhs => rw [hdecomp]
    exact genGo_append tv h pr mov _ _ c
  · have hnd' : ((tw.take i).map Prod.fst ++ s :: (tw.drop (i + 1)).map Prod.fst).Nodup := by
      have := hnd
      rw [hdecomp] at this
      simpa using this
    obtain ⟨-, hnd2, hdisj⟩ := List.nodup_append.1 hnd'
    constructor
    · intro hmem
      exact hdisj hmem (List.mem_cons_self _ _)
    · exact (List.nodup_cons.1 hnd2).1

theorem genGo_split_mem_of_some {tv : ℚ} {h : List (String × ℤ)} {pr : List (String × ℚ)}
    {mov : ℚ} {tw : List (String × ℚ)} {i : ℕ} {s : String} {w : ℚ}
    (hnd : (tw.map Prod.fst).Nodup) (hi : i < tw.length)
    (hsw : tw.getD i ("", 0) = (s, w)) {c : ℚ} {o : Order} {c' : ℚ}
    (hstep : genStep tv h pr mov s w (availGo tv h pr mov (tw.take i) c) = (some o, c')) :
    o ∈ genGo tv h pr mov tw c := by
  obtain ⟨hsplit, -, -⟩ := genGo_split hnd hi hsw c
  rw [hsplit]
  apply List.mem_append_right
  rw [genGo_cons]
  simp only [hstep]
  exact List.mem_cons_self _ _

theorem genGo_split_not_mem_of_none {tv : ℚ} {h : List (String × ℤ)}
    {pr : List (String × ℚ)} {mov : ℚ} {tw : List (String × ℚ)} {i : ℕ} {s : String}
    {w : ℚ} (hnd : (tw.map Prod.fst).Nodup) (hi : i < tw.length)
    (hsw : tw.getD i ("", 0) = (s, w)) {c : ℚ} {c' : ℚ}
    (hstep : genStep tv h pr mov s w (availGo tv h pr mov (tw.take i) c) = (none, c')) :
    ∀ o ∈ genGo tv h pr mov tw c, o.symbol ≠ s := by
  obtain ⟨hsplit, hpre, hpost⟩ := genGo_split hnd hi hsw c
  rw [hsplit]
  intro o ho
  rcases List.mem_append.1 ho with hl | hr
  · exact genGo_symbol_ne hpre o hl
  · rw [genGo_cons] at hr
    simp only [hstep] at hr
    exact genGo_symbol_ne hpost o hr

theorem genGo_split_mem_inv {tv : ℚ} {h : List (String × ℤ)} {pr : List (String × ℚ)}
    {mov : ℚ} {tw : List (String × ℚ)} {i : ℕ} {s : String} {w : ℚ}
    (hnd : (tw.map Prod.fst).Nodup) (hi : i < tw.length)
    (hsw : tw.getD i ("", 0) = (s, w)) {c : ℚ} {o : Order}
    (hmem : o ∈ genGo tv h pr mov tw c) (hsym : o.symbol = s) :
    (genStep tv h pr mov s w (availGo tv h pr mov (tw.take i) c)).1 = some o := by
  obtain ⟨hsplit, hpre, hpost⟩ := genGo_split hnd hi hsw c
  rw [hsplit] at hmem
  rcases List.mem_append.1 hmem with hl | hr
  · exact absurd hsym (genGo_symbol_ne hpre o hl)
  · rw [genGo_cons] at hr
    cases hstep : genStep tv h pr mov s w (availGo tv h pr mov (tw.take i) c) with
    | mk oo c' =>
      cases oo with
      | none =>
        simp only [hstep] at hr
        exact absurd hsym (genGo_symbol_ne hpost o hr)
      | some o' =>
        simp only [hstep] at hr
        rcases List.mem_cons.1 hr with rfl | hr'
        · rfl
        · exact absurd hsym (genGo_symbol_ne hpost o hr')

/-! ### Execution when every submission fails -/

theorem exec_all_fail (p : Portfolio) (broker : ℕ → Bool)
    (hb : ∀ j, broker j = false) :
    ∀ (l : List Order) (k : ℕ), exec_orders p l broker k = some (p, []) := by
  intro l
  induction l with
  | nil => intro k; rfl
  | cons o rest ih =>
    intro k
    rw [exec_cons]
    by_cases hq : 0 < o.quantity
    · rw [if_pos hq]
      simp only [hb k, Bool.false_eq_true, if_false]
      exact ih (k + 1)
    · rw [if_neg hq]
      exact ih k

/-! ## The claims -/

/-- C1: a successful settlement applied by the Execution Coordinator moves
cash by exactly `quantity * prices[symbol]` (down for BUY, up for SELL),
moves the holdings of the symbol by exactly the quantity (up for BUY, down
for SELL), and leaves the portfolio's total value (cash plus holdings at the
known prices) unchanged. -/
theorem claim_C1_settlement_conservation (p p' : Portfolio) (o : Order) (pr : ℚ)
    (hlook : List.lookup o.symbol p.prices = some pr)
    (hset : apply_settlement p o = some p') :
    (o.side = Side.BUY →
      p'.cash = p.cash - (o.quantity : ℚ) * pr ∧
      getD p'.holdings o.symbol 0 = getD p.holdings o.symbol 0 + o.quantity) ∧
    (o.side = Side.SELL →
      p'.cash = p.cash + (o.quantity : ℚ) * pr ∧
      getD p'.holdings o.symbol 0 = getD p.holdings o.symbol 0 - o.quantity) ∧
    get_total_value p' = get_total_value p := by
  obtain ⟨-, hcash, hself, -, htot⟩ := apply_settlement_some hset
  have hgd : getD p.prices o.symbol 0 = pr := by simp [getD, hlook]
  refine ⟨?_, ?_, htot⟩
  · intro hside
    constructor
    · rw [hcash, hgd]
      simp [sgnQty, hside]
    · simp [getD, hself, sgnQty, hside]
  · intro hside
    constructor
    · rw [hcash, hgd]
      simp [sgnQty, hside]
    · simp [getD, hself, sgnQty, hside]
      ring

/-- C3: every order in the list returned by `generate_orders` has a strictly
positive quantity, whatever the portfolio, the feed, the target weights and
the minimum order value. -/
theorem claim_C3_positive_quantity (p : Portfolio) (feed : String → Option ℚ)
    (tw : List (String × ℚ)) (mov : ℚ) (o : Order)
    (hmem : o ∈ (generate_orders p feed tw mov).2) : 0 < o.quantity :=
  (genGo_mem hmem).2.1

theorem genGo_dz_not_mem {tv : ℚ} {h : List (String × ℤ)} {pr : List (String × ℚ)}
    {mov : ℚ} :
    ∀ {l : List (String × ℚ)} {c : ℚ} {s : String} {w : ℚ},
      (l.map Prod.fst).Nodup → (s, w) ∈ l → |vdOf tv h pr s w| < mov →
      ∀ o ∈ genGo tv h pr mov l c, o.symbol ≠ s := by
  intro l
  induction l with
  | nil =>
    intro c s w _ hmem _ o ho
    exact absurd hmem (List.not_mem_nil _)
  | cons e rest ih =>
    obtain ⟨a, w'⟩ := e
    intro c s w hnd hmem hdz o ho
    have hnda : a ∉ rest.map Prod.fst := (List.nodup_cons.1 (by simpa using hnd)).1
    have hndr : (rest.map Prod.fst).Nodup := (List.nodup_cons.1 (by simpa using hnd)).2
    rcases List.mem_cons.1 hmem with heq | hmem'
    · obtain ⟨rfl, rfl⟩ := Prod.mk.injEq .. ▸ heq
      rw [genGo_cons, genStep_dz hdz] at ho
      exact genGo_symbol_ne hnda o ho
    · have hs : s ∈ rest.map Prod.fst := List.mem_map.2 ⟨(s, w), hmem', rfl⟩
      rw [genGo_cons] at ho
      cases hstep : genStep tv h pr mov a w' c with
      | mk oo c' =>
        cases oo with
        | none =>
          simp only [hstep] at ho
          exact ih hndr hmem' hdz o ho
        | some o' =>
          simp only [hstep] at ho
          rcases List.mem_cons.1 ho with rfl | ho'
          · obtain ⟨hsym, -, -, -, -, -⟩ := genStep_some hstep
            rw [hsym]
            intro hctr
            exact hnda (hctr ▸ hs)
          · exact ih hndr hmem' hdz o ho'

/-- C4: a target symbol whose absolute value difference (computed from the
refreshed prices and the total-value snapshot taken before any simulated
trade) is strictly below `min_order_value` gets no order of either side: the
dead-zone test makes the loop skip it. -/
theorem claim_C4_dead_zone (p p1 : Portfolio) (feed : String → Option ℚ)
    (tw : List (String × ℚ)) (mov : ℚ) (s : String) (w : ℚ)
    (hp1 : p1 = (generate_orders p feed tw mov).1)
    (hnd : (tw.map Prod.fst).Nodup) (hmem : (s, w) ∈ tw)
    (hdz : |vdOf (get_total_value p1) p1.holdings p1.prices s w| < mov) :
    ∀ o ∈ (generate_orders p feed tw mov).2, o.symbol ≠ s := by
  subst hp1
  exact genGo_dz_not_mem hnd hmem hdz

/-- C5: under the long-only preconditions (non-negative holdings, cash, and
refreshed prices; target weights in `[0, 1]`), every SELL order emitted by
`generate_orders` has quantity at most the portfolio's current holdings of
the symbol, so settling it cannot drive the holdings below zero. -/
theorem claim_C5_no_oversell (p : Portfolio) (feed : String → Option ℚ)
    (tw : List (String × ℚ)) (mov : ℚ) (s : String) (q : ℤ)
    (hh : ∀ e ∈ p.holdings, 0 ≤ e.2)
    (hpr : ∀ e ∈ (generate_orders p feed tw mov).1.prices, 0 ≤ e.2)
    (hc : 0 ≤ p.cash)
    (hw : ∀ e ∈ tw, 0 ≤ e.2 ∧ e.2 ≤ 1)
    (hmem : (⟨s, q, Side.SELL⟩ : Order) ∈ (generate_orders p feed tw mov).2) :
    q ≤ getD p.holdings s 0 := by
  have htv : 0 ≤ get_total_value (generate_orders p feed tw mov).1 :=
    total_value_nonneg hh hpr hc
  exact genGo_sell_le htv hh (fun e he => (hw e he).1) hmem

/-- C7 (amended): `rebalance` computes the list of successfully executed
orders and its length equals the number of broker-accepted submissions, but
the Python function returns `None` (modelled as the last result component
always being `none`), not that count. -/
theorem claim_C7_amended (comp : Option (List (String × ℚ))) (p : Portfolio)
    (feed : String → Option ℚ) (broker : ℕ → Bool) (p2 : Portfolio)
    (succ : List Order) (ret : Option ℕ)
    (hreb : rebalance comp p feed broker = some (p2, succ, ret)) :
    ret = none ∧
      succ.length = successCount broker
        (match comp with
          | none => []
          | some tw => (generate_orders p feed tw 10).2) 0 := by
  cases comp with
  | none =>
    unfold rebalance at hreb
    injection hreb with hreb
    obtain ⟨-, h2⟩ := Prod.mk.injEq .. ▸ hreb
    obtain ⟨hsucc, hret⟩ := Prod.mk.injEq .. ▸ h2
    subst hsucc
    subst hret
    exact ⟨rfl, rfl⟩
  | some tw =>
    unfold rebalance at hreb
    obtain ⟨r, hr, heq⟩ := Option.map_eq_some'.1 hreb
    obtain ⟨-, h2⟩ := Prod.mk.injEq .. ▸ heq
    obtain ⟨hsucc, hret⟩ := Prod.mk.injEq .. ▸ h2
    subst hsucc
    subst hret
    exact ⟨rfl, (exec_preserves hr).2.2⟩

/-- C8: a broker failure leaves the portfolio untouched by that order, the
order out of the successful list, and the loop moving on to the next order;
in particular if every submission fails the portfolio comes back unchanged
with an empty successful list. -/
theorem claim_C8_failure_no_effect (p : Portfolio) (broker : ℕ → Bool) (k : ℕ) :
    (∀ (o : Order) (rest : List Order), broker k = false → 0 < o.quantity →
      exec_orders p (o :: rest) broker k = exec_orders p rest broker (k + 1)) ∧
    ((∀ j, broker j = false) →
      ∀ (l : List Order) (k' : ℕ), exec_orders p l broker k' = some (p, [])) := by
  constructor
  · intro o rest hb hq
    rw [exec_cons, if_pos hq]
    simp only [hb, Bool.false_eq_true, if_false]
  · intro hb l k'
    exact exec_all_fail p broker hb l k'

/-- C10: `generate_orders` is a pure planning step over a snapshot: it leaves
the portfolio's cash and holdings exactly as they were (only the prices
mapping is refreshed); all state mutation happens in the Execution
Coordinator. -/
theorem claim_C10_frame (p : Portfolio) (feed : String → Option ℚ)
    (tw : List (String × ℚ)) (mov : ℚ) :
    (generate_orders p feed tw mov).1.cash = p.cash ∧
      (generate_orders p feed tw mov).1.holdings = p.holdings :=
  ⟨rfl, rfl⟩

/-- C2: the BUY orders of one pass are funded out of a running
`available_cash` tracker that starts at the portfolio's cash: their total
value never exceeds the cash at entry, and a warranted BUY at position `i`
of the target mapping is emitted exactly when its full order value fits in
the cash remaining after the BUY orders of the earlier positions; an
unaffordable BUY is dropped with no order at all for its symbol. -/
theorem claim_C2_cash_constraint (p p1 : Portfolio) (feed : String → Option ℚ)
    (tw : List (String × ℚ)) (mov : ℚ)
    (hp1 : p1 = (generate_orders p feed tw mov).1)
    (hnd : (tw.map Prod.fst).Nodup) (hcash : 0 ≤ p.cash) :
    buySum p1.prices (generate_orders p feed tw mov).2 ≤ p.cash ∧
    (∀ i, i < tw.length → ∀ s w, tw.getD i ("", 0) = (s, w) →
      ∀ price, List.lookup s p1.prices = some price → 0 < price →
      ¬ |vdOf (get_total_value p1) p1.holdings p1.prices s w| < mov →
      0 < truncQ (vdOf (get_total_value p1) p1.holdings p1.prices s w / price) →
      0 < vdOf (get_total_value p1) p1.holdings p1.prices s w →
      (((⟨s, truncQ (vdOf (get_total_value p1) p1.holdings p1.prices s w / price),
            Side.BUY⟩ : Order) ∈ (generate_orders p feed tw mov).2 ↔
          (truncQ (vdOf (get_total_value p1) p1.holdings p1.prices s w / price) : ℚ) *
              price ≤
            availGo (get_total_value p1) p1.holdings p1.prices mov (tw.take i) p.cash) ∧
        availGo (get_total_value p1) p1.holdings p1.prices mov (tw.take i) p.cash =
          p.cash - buySum p1.prices
            (genGo (get_total_value p1) p1.holdings p1.prices mov (tw.take i) p.cash) ∧
        (¬ (truncQ (vdOf (get_total_value p1) p1.holdings p1.prices s w / price) : ℚ) *
              price ≤
            availGo (get_total_value p1) p1.holdings p1.prices mov (tw.take i) p.cash →
          ∀ o ∈ (generate_orders p feed tw mov).2, o.symbol ≠ s))) := by
  subst hp1
  have horders : (generate_orders p feed tw mov).2 =
      genGo (get_total_value (generate_orders p feed tw mov).1)
        (generate_orders p feed tw mov).1.holdings
        (generate_orders p feed tw mov).1.prices mov tw p.cash := rfl
  constructor
  · rw [horders]
    have heq := availGo_eq (get_total_value (generate_orders p feed tw mov).1)
      (generate_orders p feed tw mov).1.holdings
      (generate_orders p feed tw mov).1.prices mov tw p.cash
    have hnn := availGo_nonneg (get_total_value (generate_orders p feed tw mov).1)
      (generate_orders p feed tw mov).1.holdings
      (generate_orders p feed tw mov).1.prices mov tw p.cash hcash
    linarith
  · intro i hi s w hsw price hlook hp hdz hq hvd
    refine ⟨⟨?_, ?_⟩, availGo_eq _ _ _ _ _ _, ?_⟩
    · intro hmem
      by_contra hnfit
      have hstep := genStep_buy_drop hdz hlook hp hq hvd hnfit
      have := genGo_split_not_mem_of_none hnd hi hsw hstep
      rw [horders] at hmem
      exact this _ hmem rfl
    · intro hfit
      have hstep := genStep_buy_emit hdz hlook hp hq hvd hfit
      have := genGo_split_mem_of_some hnd hi hsw hstep
      rw [horders]
      exact this
    · intro hnfit o ho
      have hstep := genStep_buy_drop hdz hlook hp hq hvd hnfit
      exact genGo_split_not_mem_of_none hnd hi hsw hstep o (horders ▸ ho)

/-- C9 (amended): with `min_order_value ≤ 0` the dead-zone never skips, but
whole-share truncation still does: for a target symbol with known positive
price, a deviation of at least one share's price below target always yields
the SELL (and a BUY when its value fits the running available cash), while a
nonzero deviation smaller than one share's price truncates to quantity zero
and produces no order at all for that symbol. -/
theorem claim_C9_amended (p p1 : Portfolio) (feed : String → Option ℚ)
    (tw : List (String × ℚ)) (mov : ℚ)
    (hp1 : p1 = (generate_orders p feed tw mov).1)
    (hnd : (tw.map Prod.fst).Nodup) (hmov : mov ≤ 0)
    (i : ℕ) (hi : i < tw.length) (s : String) (w : ℚ)
    (hsw : tw.getD i ("", 0) = (s, w))
    (price : ℚ) (hlook : List.lookup s p1.prices = some price) (hp : 0 < price) :
    (vdOf (get_total_value p1) p1.holdings p1.prices s w ≤ -price →
      (⟨s, |truncQ (vdOf (get_total_value p1) p1.holdings p1.prices s w / price)|,
          Side.SELL⟩ : Order) ∈ (generate_orders p feed tw mov).2) ∧
    (price ≤ vdOf (get_total_value p1) p1.holdings p1.prices s w →
      (truncQ (vdOf (get_total_value p1) p1.holdings p1.prices s w / price) : ℚ) * price ≤
        availGo (get_total_value p1) p1.holdings p1.prices mov (tw.take i) p.cash →
      (⟨s, truncQ (vdOf (get_total_value p1) p1.holdings p1.prices s w / price),
          Side.BUY⟩ : Order) ∈ (generate_orders p feed tw mov).2) ∧
    (|vdOf (get_total_value p1) p1.holdings p1.prices s w| < price →
      ∀ o ∈ (generate_orders p feed tw mov).2, o.symbol ≠ s) := by
  subst hp1
  have horders : (generate_orders p feed tw mov).2 =
      genGo (get_total_value (generate_orders p feed tw mov).1)
        (generate_orders p feed tw mov).1.holdings
        (generate_orders p feed tw mov).1.prices mov tw p.cash := rfl
  have hdz : ¬ |vdOf (get_total_value (generate_orders p feed tw mov).1)
      (generate_orders p feed tw mov).1.holdings
      (generate_orders p feed tw mov).1.prices s w| < mov :=
    not_lt.2 (le_trans hmov (abs_nonneg _))
  refine ⟨?_, ?_, ?_⟩
  · intro hsell
    have hvdneg : vdOf (get_total_value (generate_orders p feed tw mov).1)
        (generate_orders p feed tw mov).1.holdings
        (generate_orders p feed tw mov).1.prices s w < 0 :=
      lt_of_le_of_lt hsell (by linarith)
    have hqneg : truncQ (vdOf (get_total_value (generate_orders p feed tw mov).1)
        (generate_orders p feed tw mov).1.holdings
        (generate_orders p feed tw mov).1.prices s w / price) < 0 := by
      have hdivle : vdOf (get_total_value (generate_orders p feed tw mov).1)
          (generate_orders p feed tw mov).1.holdings
          (generate_orders p feed tw mov).1.prices s w / price ≤ ((-1 : ℤ) : ℚ) := by
        rw [div_le_iff₀ hp]
        push_cast
        linarith
      have := truncQ_le_of_le_neg hdivle
      omega
    have hstep := genStep_sell_emit hdz hlook hp hqneg hvdneg
      (c := availGo (get_total_value (generate_orders p feed tw mov).1)
        (generate_orders p feed tw mov).1.holdings
        (generate_orders p feed tw mov).1.prices mov (tw.take i) p.cash)
    rw [horders]
    exact genGo_split_mem_of_some hnd hi hsw hstep
  · intro hbuy hfit
    have hvdpos : 0 < vdOf (get_total_value (generate_orders p feed tw mov).1)
        (generate_orders p feed tw mov).1.holdings
        (generate_orders p feed tw mov).1.prices s w := lt_of_lt_of_le hp hbuy
    have hqpos : 0 < truncQ (vdOf (get_total_value (generate_orders p feed tw mov).1)
        (generate_orders p feed tw mov).1.holdings
        (generate_orders p feed tw mov).1.prices s w / price) := by
      have h1 : (1 : ℚ) ≤ vdOf (get_total_value (generate_orders p feed tw mov).1)
          (generate_orders p feed tw mov).1.holdings
          (generate_orders p feed tw mov).1.prices s w / price := by
        rw [le_div_iff₀ hp]
        linarith
      have := one_le_truncQ h1
      omega
    have hstep := genStep_buy_emit hdz hlook hp hqpos hvdpos hfit
    rw [horders]
    exact genGo_split_mem_of_some hnd hi hsw hstep
  · intro hsmall o ho
    have hq0 : truncQ (vdOf (get_total_value (generate_orders p feed tw mov).1)
        (generate_orders p feed tw mov).1.holdings
        (generate_orders p feed tw mov).1.prices s w / price) = 0 := by
      apply truncQ_eq_zero
      rw [abs_div, abs_of_pos hp, div_lt_one hp]
      exact hsmall
    have hstep := @genStep_zero (get_total_value (generate_orders p feed tw mov).1)
      (generate_orders p feed tw mov).1.holdings
      (generate_orders p feed tw mov).1.prices mov s w
      (availGo (get_total_value (generate_orders p feed tw mov).1)
        (generate_orders p feed tw mov).1.holdings
        (generate_orders p feed tw mov).1.prices mov (tw.take i) p.cash)
      price hlook hq0
    exact genGo_split_not_mem_of_none hnd hi hsw hstep o (horders ▸ ho)

/-- C6 (amended): when a full pass settles every emitted order successfully
and no warranted BUY was dropped for insufficient available cash, a second
`generate_orders` call with the same target weights and unchanged prices
returns the empty order list.  (Without the no-dropped-BUY proviso the claim
fails: settled SELL proceeds raise real cash, so a BUY dropped in the first
pass can be emitted by the second.) -/
theorem claim_C6_amended (p p1 p2 : Portfolio) (feed : String → Option ℚ)
    (tw : List (String × ℚ)) (mov : ℚ) (succ : List Order)
    (hp1 : p1 = (generate_orders p feed tw mov).1)
    (hnd : (tw.map Prod.fst).Nodup) (hmov : 0 < mov)
    (hnodrop : noDroppedBuys (get_total_value p1) p1.holdings p1.prices mov tw
      p1.cash = true)
    (hexec : exec_orders p1 (generate_orders p feed tw mov).2 (fun _ => true) 0 =
      some (p2, succ)) :
    (generate_orders p2 (fun s => List.lookup s p2.prices) tw mov).2 = [] := by
  subst hp1
  have hqpos : ∀ o ∈ (generate_orders p feed tw mov).2, 0 < o.quantity :=
    fun o ho => (genGo_mem ho).2.1
  obtain ⟨hprices, htot, -⟩ := exec_preserves hexec
  have hchar := exec_true_holdings hexec hqpos
  have hsecond : (generate_orders p2 (fun s => List.lookup s p2.prices) tw mov).2 =
      genGo (get_total_value p2) p2.holdings p2.prices mov tw p2.cash := by
    unfold generate_orders
    rw [refresh_portfolio_self]
  rw [hsecond, htot, hprices]
  exact pass2_empty hnd hnodrop (fun s w' _ => hchar s) p2.cash

/-! ## Counterexamples and witnesses on concrete scenarios

The rational-arithmetic primitives of the library are `@[irreducible]`; they
are made semireducible locally so that `decide` can evaluate the embedded
functions on concrete portfolios. -/

section

attribute [local semireducible] Rat.add Rat.sub Rat.mul Rat.inv

/-- C6 (counterexample): a portfolio holding 2 shares of `A` at 100 with no
cash and targets `A ↦ 0`, `B ↦ 1/2` sells `A` for 200 of cash in the first
pass while the warranted BUY of `B` (value 100) is dropped against the
running available cash of 0; after full settlement the second pass with the
same targets and unchanged prices emits `BUY B 2`, not the empty list. -/
theorem claim_C6_counterexample :
    (generate_orders ⟨0, [("A", 2)], [("A", 100), ("B", 50)]⟩ (fun _ => none)
        [("A", 0), ("B", 1/2)] 10).2 = [⟨"A", 2, Side.SELL⟩] ∧
    exec_orders (generate_orders ⟨0, [("A", 2)], [("A", 100), ("B", 50)]⟩ (fun _ => none)
        [("A", 0), ("B", 1/2)] 10).1
      (generate_orders ⟨0, [("A", 2)], [("A", 100), ("B", 50)]⟩ (fun _ => none)
        [("A", 0), ("B", 1/2)] 10).2 (fun _ => true) 0 =
      some (⟨200, [("A", 0)], [("A", 100), ("B", 50)]⟩, [⟨"A", 2, Side.SELL⟩]) ∧
    (generate_orders ⟨200, [("A", 0)], [("A", 100), ("B", 50)]⟩
        (fun s => List.lookup s ([("A", (100 : ℚ)), ("B", 50)]))
        [("A", 0), ("B", 1/2)] 10).2 = [⟨"B", 2, Side.BUY⟩] ∧
    (generate_orders ⟨200, [("A", 0)], [("A", 100), ("B", 50)]⟩
        (fun s => List.lookup s ([("A", (100 : ℚ)), ("B", 50)]))
        [("A", 0), ("B", 1/2)] 10).2 ≠ [] :=
  ⟨by decide, by decide, by decide, by decide⟩

/-- C7 (counterexample): on a concrete run that successfully executes one
BUY, `rebalance` computes a successful list of length 1 but its Python
return value (the last result component) is `None`, not the count 1. -/
theorem claim_C7_counterexample :
    rebalance (some [("A", 1)]) ⟨100, [], []⟩
        (fun s => if s = "A" then some 10 else none) (fun _ => true) =
      some (⟨0, [("A", 10)], [("A", 10)]⟩, [⟨"A", 10, Side.BUY⟩], none) ∧
    ([(⟨"A", 10, Side.BUY⟩ : Order)].length = 1) ∧
    (none : Option ℕ) ≠ some 1 :=
  ⟨by decide, by decide, by decide⟩

/-- C9 (counterexample): with `min_order_value = 0`, cash 5 and `A` priced at
10, the deviation of `A` is 5 ≠ 0, yet `int(5 / 10) = 0` shares means no
order is generated at all — nonzero deviations below one share's price are
not ordered. -/
theorem claim_C9_counterexample :
    vdOf (get_total_value (generate_orders ⟨5, [], [("A", 10)]⟩ (fun _ => none)
        [("A", 1)] 0).1)
      (generate_orders ⟨5, [], [("A", 10)]⟩ (fun _ => none) [("A", 1)] 0).1.holdings
      (generate_orders ⟨5, [], [("A", 10)]⟩ (fun _ => none) [("A", 1)] 0).1.prices
      "A" 1 = 5 ∧
    (5 : ℚ) ≠ 0 ∧
    List.lookup "A" (generate_orders ⟨5, [], [("A", 10)]⟩ (fun _ => none)
      [("A", 1)] 0).1.prices = some 10 ∧
    (generate_orders ⟨5, [], [("A", 10)]⟩ (fun _ => none) [("A", 1)] 0).2 = [] :=
  ⟨by decide, by decide, by decide, by decide⟩

/-- C1 (witness): settling `BUY 2 A` at stored price 10 on a portfolio with
cash 100 and one share of `A` gives cash 80, three shares, and an unchanged
total value. -/
theorem claim_C1_witness :
    List.lookup (Order.mk "A" 2 Side.BUY).symbol
        (Portfolio.mk 100 [("A", 1)] [("A", 10)]).prices = some 10 ∧
    apply_settlement ⟨100, [("A", 1)], [("A", 10)]⟩ ⟨"A", 2, Side.BUY⟩ =
      some ⟨80, [("A", 3)], [("A", 10)]⟩ ∧
    get_total_value (⟨80, [("A", 3)], [("A", 10)]⟩ : Portfolio) =
      get_total_value (⟨100, [("A", 1)], [("A", 10)]⟩ : Portfolio) :=
  ⟨by decide, by decide,
    (claim_C1_settlement_conservation ⟨100, [("A", 1)], [("A", 10)]⟩
      ⟨80, [("A", 3)], [("A", 10)]⟩ ⟨"A", 2, Side.BUY⟩ 10
      (by decide) (by decide)).2.2⟩

/-- C2 (witness): the spec's two-symbol starvation scenario — cash 100 and
two 70-valued warranted buys — has total BUY value 70 ≤ 100: the loop funds
`A` and drops `B`. -/
theorem claim_C2_witness :
    (([("A", (7 : ℚ)/10), ("B", 7/10)].map Prod.fst).Nodup) ∧
    ((0 : ℚ) ≤ (100 : ℚ)) ∧
    buySum (⟨100, [], [("A", 70), ("B", 70)]⟩ : Portfolio).prices
      (generate_orders ⟨100, [], []⟩
        (fun s => if s = "A" then some 70 else if s = "B" then some 70 else none)
        [("A", 7/10), ("B", 7/10)] 10).2 ≤ (100 : ℚ) :=
  ⟨by decide, by decide,
    (claim_C2_cash_constraint ⟨100, [], []⟩ ⟨100, [], [("A", 70), ("B", 70)]⟩
      (fun s => if s = "A" then some 70 else if s = "B" then some 70 else none)
      [("A", 7/10), ("B", 7/10)] 10 (by decide) (by decide) (by decide)).1⟩

/-- C3 (witness): in the spec's example scenario the generated `BUY AAPL 33`
has positive quantity. -/
theorem claim_C3_witness :
    (⟨"AAPL", 33, Side.BUY⟩ : Order) ∈ (generate_orders ⟨10000, [], []⟩
      (fun s => if s = "AAPL" then some 150 else if s = "MSFT" then some 100 else none)
      [("AAPL", 1/2), ("MSFT", 1/2)] 10).2 ∧
    0 < (Order.mk "AAPL" 33 Side.BUY).quantity :=
  ⟨by decide,
    claim_C3_positive_quantity ⟨10000, [], []⟩
      (fun s => if s = "AAPL" then some 150 else if s = "MSFT" then some 100 else none)
      [("AAPL", 1/2), ("MSFT", 1/2)] 10 ⟨"AAPL", 33, Side.BUY⟩ (by decide)⟩

/-- C4 (witness): a symbol already exactly on target (deviation 0, below the
minimum order value 10) gets no order. -/
theorem claim_C4_witness :
    ((⟨100, [], [("A", 10)]⟩ : Portfolio) =
        (generate_orders ⟨100, [], [("A", 10)]⟩ (fun _ => none) [("A", 0)] 10).1) ∧
    (([("A", (0 : ℚ))].map Prod.fst).Nodup) ∧
    (("A", (0 : ℚ)) ∈ [("A", (0 : ℚ))]) ∧
    |vdOf (get_total_value (⟨100, [], [("A", 10)]⟩ : Portfolio))
        (⟨100, [], [("A", 10)]⟩ : Portfolio).holdings
        (⟨100, [], [("A", 10)]⟩ : Portfolio).prices "A" 0| < 10 ∧
    ∀ o ∈ (generate_orders ⟨100, [], [("A", 10)]⟩ (fun _ => none) [("A", 0)] 10).2,
      o.symbol ≠ "A" :=
  ⟨by decide, by decide, by decide, by decide,
    claim_C4_dead_zone ⟨100, [], [("A", 10)]⟩ ⟨100, [], [("A", 10)]⟩ (fun _ => none)
      [("A", 0)] 10 "A" 0 (by decide) (by decide) (by decide) (by decide)⟩

/-- C5 (witness): a portfolio holding 3 shares of `A` with target weight 0
emits `SELL A 3`, which is exactly (and no more than) the current holdings. -/
theorem claim_C5_witness :
    (∀ e ∈ (⟨0, [("A", 3)], [("A", 10)]⟩ : Portfolio).holdings, 0 ≤ e.2) ∧
    (∀ e ∈ (generate_orders ⟨0, [("A", 3)], [("A", 10)]⟩ (fun _ => none)
        [("A", 0)] 5).1.prices, 0 ≤ e.2) ∧
    ((0 : ℚ) ≤ 0) ∧
    (∀ e ∈ [("A", (0 : ℚ))], 0 ≤ e.2 ∧ e.2 ≤ 1) ∧
    (⟨"A", 3, Side.SELL⟩ : Order) ∈
      (generate_orders ⟨0, [("A", 3)], [("A", 10)]⟩ (fun _ => none) [("A", 0)] 5).2 ∧
    (3 : ℤ) ≤ getD (⟨0, [("A", 3)], [("A", 10)]⟩ : Portfolio).holdings "A" 0 :=
  ⟨by decide, by decide, by decide, by decide, by decide,
    claim_C5_no_oversell ⟨0, [("A", 3)], [("A", 10)]⟩ (fun _ => none) [("A", 0)] 5
      "A" 3 (by decide) (by decide) (by decide) (by decide) (by decide)⟩

/-- C6 (witness): a pass that can afford its single warranted BUY settles it
and the immediate second pass with unchanged prices generates nothing. -/
theorem claim_C6_witness :
    noDroppedBuys (get_total_value (⟨100, [], [("A", 10)]⟩ : Portfolio))
      (⟨100, [], [("A", 10)]⟩ : Portfolio).holdings
      (⟨100, [], [("A", 10)]⟩ : Portfolio).prices 10 [("A", 1/2)] 100 = true ∧
    exec_orders (⟨100, [], [("A", 10)]⟩ : Portfolio)
      (generate_orders ⟨100, [], [("A", 10)]⟩ (fun _ => none) [("A", 1/2)] 10).2
      (fun _ => true) 0 = some (⟨50, [("A", 5)], [("A", 10)]⟩, [⟨"A", 5, Side.BUY⟩]) ∧
    (generate_orders ⟨50, [("A", 5)], [("A", 10)]⟩
      (fun s => List.lookup s (⟨50, [("A", 5)], [("A", 10)]⟩ : Portfolio).prices)
      [("A", 1/2)] 10).2 = [] :=
  ⟨by decide, by decide,
    claim_C6_amended ⟨100, [], [("A", 10)]⟩ ⟨100, [], [("A", 10)]⟩
      ⟨50, [("A", 5)], [("A", 10)]⟩ (fun _ => none) [("A", 1/2)] 10
      [⟨"A", 5, Side.BUY⟩] (by decide) (by decide) (by decide) (by decide) (by decide)⟩

/-- C7 (witness): a run with one accepted BUY returns `None` and builds a
one-element successful list matching the broker's single acceptance. -/
theorem claim_C7_witness :
    rebalance (some [("B", 1)]) ⟨50, [], []⟩
        (fun s => if s = "B" then some 5 else none) (fun _ => true) =
      some (⟨0, [("B", 10)], [("B", 5)]⟩, [⟨"B", 10, Side.BUY⟩], none) ∧
    ((none : Option ℕ) = none ∧
      ([(⟨"B", 10, Side.BUY⟩ : Order)]).length =
        successCount (fun _ => true)
          (match (some [("B", (1 : ℚ))] : Option (List (String × ℚ))) with
            | none => []
            | some tw => (generate_orders ⟨50, [], []⟩
                (fun s => if s = "B" then some 5 else none) tw 10).2) 0) :=
  ⟨by decide,
    claim_C7_amended (some [("B", 1)]) ⟨50, [], []⟩
      (fun s => if s = "B" then some 5 else none) (fun _ => true)
      ⟨0, [("B", 10)], [("B", 5)]⟩ [⟨"B", 10, Side.BUY⟩] none (by decide)⟩

/-- C8 (witness): with a broker that rejects everything, executing a
one-order list leaves the portfolio unchanged and the successful list
empty. -/
theorem claim_C8_witness :
    exec_orders (⟨7, [("A", 1)], [("A", 10)]⟩ : Portfolio) [⟨"A", 1, Side.BUY⟩]
      (fun _ => false) 0 = some (⟨7, [("A", 1)], [("A", 10)]⟩, []) :=
  (claim_C8_failure_no_effect ⟨7, [("A", 1)], [("A", 10)]⟩ (fun _ => false) 0).2
    (fun _ => rfl) [⟨"A", 1, Side.BUY⟩] 0

/-- C9 (witness): with `min_order_value = 0`, a deviation of −20 on a price
of 10 (at least one share's worth) emits the SELL. -/
theorem claim_C9_witness :
    ((⟨0, [("A", 2)], [("A", 10)]⟩ : Portfolio) =
        (generate_orders ⟨0, [("A", 2)], [("A", 10)]⟩ (fun _ => none) [("A", 0)] 0).1) ∧
    ((0 : ℚ) ≤ 0) ∧
    (vdOf (get_total_value (⟨0, [("A", 2)], [("A", 10)]⟩ : Portfolio))
        (⟨0, [("A", 2)], [("A", 10)]⟩ : Portfolio).holdings
        (⟨0, [("A", 2)], [("A", 10)]⟩ : Portfolio).prices "A" 0 ≤ -10 →
      (⟨"A", |truncQ (vdOf (get_total_value (⟨0, [("A", 2)], [("A", 10)]⟩ : Portfolio))
          (⟨0, [("A", 2)], [("A", 10)]⟩ : Portfolio).holdings
          (⟨0, [("A", 2)], [("A", 10)]⟩ : Portfolio).prices "A" 0 / 10)|,
          Side.SELL⟩ : Order) ∈
        (generate_orders ⟨0, [("A", 2)], [("A", 10)]⟩ (fun _ => none) [("A", 0)] 0).2) :=
  ⟨by decide, by decide,
    (claim_C9_amended ⟨0, [("A", 2)], [("A", 10)]⟩ ⟨0, [("A", 2)], [("A", 10)]⟩
      (fun _ => none) [("A", 0)] 0 (by decide) (by decide) (by decide) 0 (by decide)
      "A" 0 (by decide) 10 (by decide) (by decide)).1⟩

end

end IdxFund
